import Mathlib

/-!
Shallow embedding of the trading core (`trading.py`) of the Aqothy/geese
repository: user ledger initialization, login-streak rewards, the stock
price cache, buy/sell order processing and daily-return calculation.

Money and share quantities are modelled as exact rationals; Python's
`round(x, 2)` is modelled as round-half-to-even at two decimal places.
Timestamps are modelled as a calendar day index plus seconds within the
day, since the streak logic only compares `.date()` components.
-/

namespace Geese

/-- Python's `round` to the nearest integer, ties to even (banker's rounding). -/
def roundHalfEven (q : ℚ) : ℤ :=
  if q - (⌊q⌋ : ℚ) < 1/2 then ⌊q⌋
  else if 1/2 < q - (⌊q⌋ : ℚ) then ⌊q⌋ + 1
  else if ⌊q⌋ % 2 = 0 then ⌊q⌋ else ⌊q⌋ + 1

/-- Python's `round(x, 2)`: round to two decimal places, ties to even. -/
def round2 (q : ℚ) : ℚ := (roundHalfEven (q * 100) : ℚ) / 100

/-- A rational that is a whole number of cents (a two-decimal value). -/
def IsCents (q : ℚ) : Prop := ∃ n : ℤ, q = (n : ℚ) / 100

theorem roundHalfEven_intCast (n : ℤ) : roundHalfEven (n : ℚ) = n := by
  unfold roundHalfEven
  simp

theorem roundHalfEven_sub_le (q : ℚ) : |(roundHalfEven q : ℚ) - q| ≤ 1/2 := by
  have hf : (⌊q⌋ : ℚ) ≤ q := Int.floor_le q
  have hf' : q < (⌊q⌋ : ℚ) + 1 := Int.lt_floor_add_one q
  unfold roundHalfEven
  split
  · rename_i h
    rw [abs_sub_comm, abs_of_nonneg (by linarith)]
    linarith
  · rename_i h
    push_neg at h
    split
    · rename_i h2
      rw [abs_of_nonneg (by push_cast; linarith)]
      push_cast
      linarith
    · rename_i h2
      push_neg at h2
      have heq : q - (⌊q⌋ : ℚ) = 1/2 := le_antisymm h2 h
      split
      · rw [abs_sub_comm, abs_of_nonneg (by linarith)]
        linarith
      · rw [abs_of_nonneg (by push_cast; linarith)]
        push_cast
        linarith

theorem round2_sub_le (q : ℚ) : |round2 q - q| ≤ 1/200 := by
  have h := roundHalfEven_sub_le (q * 100)
  unfold round2
  have heq : (roundHalfEven (q * 100) : ℚ) / 100 - q
      = ((roundHalfEven (q * 100) : ℚ) - q * 100) / 100 := by ring
  rw [heq, abs_div, abs_of_pos (by norm_num : (0:ℚ) < 100),
    div_le_iff₀ (by norm_num : (0:ℚ) < 100)]
  linarith

theorem round2_cents (n : ℤ) : round2 ((n : ℚ) / 100) = (n : ℚ) / 100 := by
  unfold round2
  rw [div_mul_cancel₀ _ (by norm_num : (100:ℚ) ≠ 0), roundHalfEven_intCast]

theorem round2_isCents (q : ℚ) : IsCents (round2 q) := ⟨roundHalfEven (q * 100), rfl⟩

theorem round2_of_isCents {q : ℚ} (h : IsCents q) : round2 q = q := by
  obtain ⟨n, rfl⟩ := h
  exact round2_cents n

/-- A UTC timestamp, reduced to what the code inspects: the calendar day
index (what Python's `.date()` extracts, ordered and stepped in whole days)
and the second within the day (never compared by the code). -/
structure DateTime where
  day : ℤ
  sec : ℕ
deriving DecidableEq, Repr

/-- One portfolio entry: `{'symbol': ..., 'quantity': ..., 'average_price': ...}`. -/
structure Position where
  symbol : String
  quantity : ℚ
  average_price : ℚ
deriving DecidableEq, Repr

/-- One user document of the `users` collection. -/
structure Ledger where
  user_id : ℕ
  portfolio : List Position
  buying_power : ℚ
  streak : ℕ
  last_login : Option DateTime
  streak_reward_claimed : Option DateTime
deriving DecidableEq, Repr

/-- `initialize_user`: insert a fresh document unless one with this
`user_id` already exists (`find_one` on the key). The fresh document has
$10000 buying power, an empty portfolio, streak 0, `last_login` stamped to
the current time and no reward-claim timestamp. -/
def initialize_user (db : List Ledger) (uid : ℕ) (now : DateTime) : List Ledger :=
  if (db.find? (fun l => l.user_id = uid)).isSome then db
  else db ++ [⟨uid, [], 10000, 0, some now, none⟩]

/-- Result of `update_login_streak`: the streak reported and the reward granted. -/
structure StreakResult where
  streak : ℕ
  reward : ℚ
deriving DecidableEq, Repr

/-- The recomputed streak of `update_login_streak` on a new calendar day:
incremented when the login is consecutive (yesterday), else reset to 1. -/
def nextStreak (l : Ledger) (lastLogin now : DateTime) : ℕ :=
  if now.day = lastLogin.day + 1 then l.streak + 1 else 1

/-- `update_login_streak` on one user document. `none` models the uncaught
`AttributeError` Python would raise when `last_reward` is set but
`last_login` is absent (`.date()` on `None`); every state the system
creates has `last_login` set. Otherwise it follows the code: a missing
reward-claim timestamp is the first login (streak 1, +$100); on a later
calendar day the streak is incremented when consecutive, else reset to 1,
and $100 is granted only when no reward was claimed on the current day;
on a same-day (or earlier-day) login only `last_login` and the unchanged
streak are persisted and no reward is granted. -/
def update_login_streak (l : Ledger) (now : DateTime) :
    Option (StreakResult × Ledger) :=
  match l.streak_reward_claimed with
  | none =>
      some (⟨1, 100⟩,
        { l with streak := 1, last_login := some now,
                 streak_reward_claimed := some now,
                 buying_power := l.buying_power + 100 })
  | some lastReward =>
      match l.last_login with
      | none => none
      | some lastLogin =>
          if lastLogin.day < now.day then
            if lastReward.day < now.day then
              some (⟨nextStreak l lastLogin now, 100⟩,
                { l with streak := nextStreak l lastLogin now,
                         last_login := some now,
                         streak_reward_claimed := some now,
                         buying_power := l.buying_power + 100 })
            else
              some (⟨nextStreak l lastLogin now, 0⟩,
                { l with streak := nextStreak l lastLogin now,
                         last_login := some now })
          else
            some (⟨l.streak, 0⟩,
              { l with streak := l.streak, last_login := some now })

/-- A price-cache document of the `stocks` collection: symbol, last price
and the fetch timestamp (in seconds). -/
structure CacheEntry where
  symbol : String
  price : ℚ
  timestamp : ℤ
deriving DecidableEq, Repr

/-- The external feed's behaviour for one call: a closing price, an empty
trading history, or a raised exception with a message. -/
inductive FeedBehavior where
  | ok (price : ℚ)
  | empty
  | err (msg : String)
deriving DecidableEq, Repr

/-- Mongo `update_one({'symbol': s}, {'$set': ...}, upsert=True)`: overwrite
the first document matching the symbol, or insert a new one. -/
def upsertPrice (db : List CacheEntry) (s : String) (p : ℚ) (t : ℤ) :
    List CacheEntry :=
  match db with
  | [] => [⟨s, p, t⟩]
  | e :: rest =>
      if e.symbol = s then ⟨s, p, t⟩ :: rest
      else e :: upsertPrice rest s p t

/-- `get_stock_price`: serve from the cache when the entry is younger than
`maxAge` seconds; otherwise consult the feed, upsert the fresh price with
the current timestamp and return it. An empty history or a feed exception
is wrapped into a `ValueError` whose message names the symbol and the
cause. Returns the price and the cache after the call. -/
def get_stock_price (db : List CacheEntry) (symbol : String) (now : ℤ)
    (maxAge : ℤ) (feed : FeedBehavior) : Except String (ℚ × List CacheEntry) :=
  match db.find? (fun e => e.symbol = symbol) with
  | some e =>
      if now - e.timestamp < maxAge then .ok (e.price, db)
      else fetchAndCache db symbol now feed
  | none => fetchAndCache db symbol now feed
where
  /-- The cache-miss path: call the feed, upsert on success, wrap failures. -/
  fetchAndCache (db : List CacheEntry) (symbol : String) (now : ℤ)
      (feed : FeedBehavior) : Except String (ℚ × List CacheEntry) :=
    match feed with
    | .ok p => .ok (p, upsertPrice db symbol p now)
    | .empty => .error ("Error fetching price for " ++ symbol ++ ": " ++
        ("No price data available for " ++ symbol))
    | .err m => .error ("Error fetching price for " ++ symbol ++ ": " ++ m)

/-- The distinct rejection cases of `buy_stock`. `priceErr` carries the
`ValueError` message propagated from `get_stock_price`. -/
inductive BuyErr where
  | invalidAmount
  | belowMinimum
  | insufficientFunds
  | priceErr (msg : String)
deriving DecidableEq, Repr

/-- The dictionary `buy_stock` returns: an error, or the success record. -/
inductive BuyResult where
  | err (e : BuyErr)
  | ok (shares_bought : ℚ) (cost : ℚ) (price_per_share : ℚ)
deriving DecidableEq, Repr

/-- The portfolio loop of `buy_stock`: average into the first position with
this symbol, else append a new position at the rounded price. -/
def buyUpdate (portfolio : List Position) (symbol : String) (q p : ℚ) :
    List Position :=
  match portfolio with
  | [] => [⟨symbol, q, round2 p⟩]
  | s :: rest =>
      if s.symbol = symbol then
        ⟨s.symbol, round2 (s.quantity + q),
         round2 ((s.quantity * s.average_price + q * p) / round2 (s.quantity + q))⟩
          :: rest
      else s :: buyUpdate rest symbol q p

/-- `buy_stock` on one user document. The price is passed as the outcome of
`get_stock_price` (an exception there is caught and surfaced as the error
result). Returns the result dictionary and the document after the call. -/
def buy_stock (l : Ledger) (symbol : String) (dollar_amount : ℚ)
    (priceRes : Except String ℚ) : BuyResult × Ledger :=
  if dollar_amount ≤ 0 then (.err .invalidAmount, l)
  else
    match priceRes with
    | .error m => (.err (.priceErr m), l)
    | .ok current_price =>
        let quantity := round2 (dollar_amount / current_price)
        if quantity < 1/100 then (.err .belowMinimum, l)
        else
          let total_cost := round2 (current_price * quantity)
          if l.buying_power < total_cost then (.err .insufficientFunds, l)
          else
            (.ok quantity total_cost (round2 current_price),
             { l with
                portfolio := buyUpdate l.portfolio symbol quantity current_price,
                buying_power := round2 (l.buying_power - total_cost) })

/-- The distinct rejection cases of `sell_stock`. `insufficientShares`
carries the held quantity quoted in the message. -/
inductive SellErr where
  | invalidQuantity
  | insufficientShares (held : ℚ)
  | stockNotFound
  | priceErr (msg : String)
deriving DecidableEq, Repr

/-- The dictionary `sell_stock` returns: an error, or the success record. -/
inductive SellResult where
  | err (e : SellErr)
  | ok (value : ℚ) (price_per_share : ℚ)
deriving DecidableEq, Repr

/-- Outcome of the portfolio loop of `sell_stock`. -/
inductive SellUpd where
  | notFound
  | insufficient (held : ℚ)
  | ok (newPortfolio : List Position)
deriving DecidableEq, Repr

/-- The portfolio loop of `sell_stock`: at the first position with this
symbol, reject when fewer shares are held than requested, otherwise reduce
the quantity (rounded) and drop the position when below 0.01. -/
def sellUpdate (portfolio : List Position) (symbol : String) (q : ℚ) :
    SellUpd :=
  match portfolio with
  | [] => .notFound
  | s :: rest =>
      if s.symbol = symbol then
        if s.quantity < q then .insufficient s.quantity
        else
          if round2 (s.quantity - q) < 1/100 then .ok rest
          else .ok (⟨s.symbol, round2 (s.quantity - q), s.average_price⟩ :: rest)
      else
        match sellUpdate rest symbol q with
        | .notFound => .notFound
        | .insufficient h => .insufficient h
        | .ok p' => .ok (s :: p')

/-- `sell_stock` on one user document: validate the quantity, round it,
price the sale, run the portfolio loop and credit the proceeds. -/
def sell_stock (l : Ledger) (symbol : String) (quantity : ℚ)
    (priceRes : Except String ℚ) : SellResult × Ledger :=
  if quantity ≤ 0 then (.err .invalidQuantity, l)
  else
    let q := round2 quantity
    match priceRes with
    | .error m => (.err (.priceErr m), l)
    | .ok current_price =>
        let total_value := round2 (current_price * q)
        match sellUpdate l.portfolio symbol q with
        | .notFound => (.err .stockNotFound, l)
        | .insufficient h => (.err (.insufficientShares h), l)
        | .ok p' =>
            (.ok total_value current_price,
             { l with portfolio := p',
                      buying_power := round2 (l.buying_power + total_value) })

/-- The two-day history lookup of `calculate_daily_return`: the closing
series for a symbol, or a raised exception's message. -/
inductive HistResult where
  | ok (closes : List ℚ)
  | err (msg : String)

/-- One element of `stock_returns`: numeric returns, or the error marker
appended when the lookup for that symbol raised. -/
inductive StockReturn where
  | ret (symbol : String) (daily_return daily_return_percentage
      yesterday_price today_price : ℚ)
  | errMark (symbol : String) (msg : String)
deriving DecidableEq, Repr

/-- Accumulator of the portfolio loop of `calculate_daily_return`. -/
structure DailyAcc where
  dr : ℚ
  pvy : ℚ
  pvt : ℚ
  rets : List StockReturn

/-- The dictionary `calculate_daily_return` returns. -/
structure DailyReturn where
  daily_return : ℚ
  daily_return_percentage : ℚ
  portfolio_value_yesterday : ℚ
  portfolio_value_today : ℚ
  stock_returns : List StockReturn

/-- One iteration of the portfolio loop of `calculate_daily_return`: with at
least two closes, accumulate the day-over-day delta (a zero yesterday-close
raises `ZeroDivisionError`, caught into an error marker); with fewer than
two closes the body is skipped; a raising lookup appends an error marker. -/
def dailyStep (hist : String → HistResult) (acc : DailyAcc) (ps : Position) :
    DailyAcc :=
  match hist ps.symbol with
  | .err m => { acc with rets := acc.rets ++ [.errMark ps.symbol m] }
  | .ok closes =>
      if 2 ≤ closes.length then
        let y := closes.getD (closes.length - 2) 0
        let t := closes.getD (closes.length - 1) 0
        if y = 0 then
          { acc with
            rets := acc.rets ++ [.errMark ps.symbol "float division by zero"] }
        else
          { dr := acc.dr + (t - y) * ps.quantity
            pvy := acc.pvy + y * ps.quantity
            pvt := acc.pvt + t * ps.quantity
            rets := acc.rets ++
              [.ret ps.symbol ((t - y) * ps.quantity) ((t - y) / y * 100) y t] }
      else acc

/-- `calculate_daily_return` on one user document, with the two-day price
history passed as a lookup function. -/
def calculate_daily_return (l : Ledger) (hist : String → HistResult) :
    DailyReturn :=
  let acc := l.portfolio.foldl (dailyStep hist) ⟨0, l.buying_power, l.buying_power, []⟩
  { daily_return := acc.dr
    daily_return_percentage :=
      if 0 < acc.pvy then (acc.pvt - acc.pvy) / acc.pvy * 100 else 0
    portfolio_value_yesterday := acc.pvy
    portfolio_value_today := acc.pvt
    stock_returns := acc.rets }

/-! ### Claim theorems -/

/-- C7 counterexample: `initialize_user` on a fresh id does NOT leave the
last-login timestamp absent — the created document carries
`last_login = some now` (here `now = ⟨5, 3⟩`), refuting the claim that a
fresh ledger has "no last-login or last-reward timestamps". -/
theorem initialize_user_stamps_last_login :
    initialize_user [] 1 ⟨5, 3⟩
        = [{ user_id := 1, portfolio := [], buying_power := 10000, streak := 0,
             last_login := some ⟨5, 3⟩, streak_reward_claimed := none }] ∧
      (some (⟨5, 3⟩ : DateTime) ≠ none) := by
  constructor
  · rfl
  · simp

/-- C7 (amended): for a user id with no existing record, `initialize_user`
appends a ledger with cash balance 10000, empty positions, streak 0,
`last_login` stamped to the creation time, and no last-reward timestamp. -/
theorem initialize_user_creates (db : List Ledger) (uid : ℕ) (now : DateTime)
    (h : db.find? (fun l => l.user_id = uid) = none) :
    initialize_user db uid now
      = db ++ [{ user_id := uid, portfolio := [], buying_power := 10000,
                 streak := 0, last_login := some now,
                 streak_reward_claimed := none }] := by
  unfold initialize_user
  rw [h]
  rfl

/-- Witness for C7's amended theorem at the empty store. -/
theorem initialize_user_creates_witness :
    ([] : List Ledger).find? (fun l => l.user_id = 1) = none ∧
      initialize_user [] 1 ⟨0, 0⟩
        = [] ++ [{ user_id := 1, portfolio := [], buying_power := 10000,
                   streak := 0, last_login := some ⟨0, 0⟩,
                   streak_reward_claimed := none }] :=
  ⟨rfl, initialize_user_creates [] 1 ⟨0, 0⟩ rfl⟩

/-- C10: when a record with this user id already exists, `initialize_user`
returns the store unchanged (the existence check is inside the function),
and a repeated `initialize_user` call never inserts a second record. -/
theorem initialize_user_existing (db : List Ledger) (uid : ℕ) (now : DateTime) :
    ((db.find? (fun l => l.user_id = uid)).isSome →
      initialize_user db uid now = db) ∧
    (∀ now', initialize_user (initialize_user db uid now) uid now'
      = initialize_user db uid now) := by
  constructor
  · intro h
    unfold initialize_user
    rw [if_pos h]
  · intro now'
    rcases hf : db.find? (fun l => l.user_id = uid) with _ | l
    · have h1 : initialize_user db uid now
          = db ++ [{ user_id := uid, portfolio := [], buying_power := 10000,
                     streak := 0, last_login := some now,
                     streak_reward_claimed := none }] := by
        unfold initialize_user
        rw [hf]
        rfl
      rw [h1]
      unfold initialize_user
      rw [List.find?_append, hf]
      simp
    · have h1 : initialize_user db uid now = db := by
        unfold initialize_user
        rw [hf]
        rfl
      rw [h1]
      unfold initialize_user
      rw [hf]
      rfl

/-- Witness for C10 at a one-record store. -/
theorem initialize_user_existing_witness :
    (([{ user_id := 1, portfolio := [], buying_power := 10000, streak := 0,
         last_login := none,
         streak_reward_claimed := none }] : List Ledger).find?
        (fun l => l.user_id = 1)).isSome ∧
      initialize_user
        [{ user_id := 1, portfolio := [], buying_power := 10000, streak := 0,
           last_login := none, streak_reward_claimed := none }] 1 ⟨2, 0⟩
        = [{ user_id := 1, portfolio := [], buying_power := 10000, streak := 0,
             last_login := none, streak_reward_claimed := none }] :=
  ⟨rfl, (initialize_user_existing _ 1 ⟨2, 0⟩).1 rfl⟩

/-- After any completed `update_login_streak` call whose stored reward
timestamp is not in the future, the post-state has `last_login` stamped to
the call time, the persisted streak equals the reported streak, and the
reward-claim timestamp is set and not in the future. -/
theorem update_login_streak_post {l : Ledger} {now : DateTime}
    {r : StreakResult} {l' : Ledger}
    (h : update_login_streak l now = some (r, l'))
    (hb : ∀ t, l.streak_reward_claimed = some t → t.day ≤ now.day) :
    l'.last_login = some now ∧ l'.streak = r.streak ∧
      ∃ t, l'.streak_reward_claimed = some t ∧ t.day ≤ now.day := by
  obtain ⟨uid, pf, bp, st, oll, orc⟩ := l
  rcases orc with _ | t
  · simp only [update_login_streak, Option.some.injEq, Prod.mk.injEq] at h
    obtain ⟨rfl, rfl⟩ := h
    exact ⟨rfl, rfl, now, rfl, le_refl _⟩
  · rcases oll with _ | ll
    · simp only [update_login_streak] at h
      exact Option.noConfusion h
    · have ht : t.day ≤ now.day := hb t rfl
      simp only [update_login_streak] at h
      split at h
      · split at h <;>
        · simp only [Option.some.injEq, Prod.mk.injEq] at h
          obtain ⟨rfl, rfl⟩ := h
          first
            | exact ⟨rfl, rfl, now, rfl, le_refl _⟩
            | exact ⟨rfl, rfl, t, rfl, ht⟩
      · simp only [Option.some.injEq, Prod.mk.injEq] at h
        obtain ⟨rfl, rfl⟩ := h
        exact ⟨rfl, rfl, t, rfl, ht⟩

/-- C4: after any completed `update_login_streak` call at time `n1` (on a
state whose stored reward timestamp is not in the future), a second call on
the same calendar date yields reward 0; a second call on the next calendar
date yields streak incremented by 1 and reward 100; and a second call after
a gap of at least 2 days yields streak reset to 1 (with reward 100). -/
theorem update_login_streak_calendar (l : Ledger) (n1 n2 : DateTime)
    (r1 : StreakResult) (l1 : Ledger)
    (h1 : update_login_streak l n1 = some (r1, l1))
    (hb : ∀ t, l.streak_reward_claimed = some t → t.day ≤ n1.day) :
    (n2.day = n1.day →
      ∃ r2 l2, update_login_streak l1 n2 = some (r2, l2) ∧ r2.reward = 0) ∧
    (n2.day = n1.day + 1 →
      ∃ l2, update_login_streak l1 n2 = some (⟨r1.streak + 1, 100⟩, l2)) ∧
    (n1.day + 2 ≤ n2.day →
      ∃ l2, update_login_streak l1 n2 = some (⟨1, 100⟩, l2)) := by
  obtain ⟨hll, hst, t', hrc, ht⟩ := update_login_streak_post h1 hb
  refine ⟨?_, ?_, ?_⟩
  · intro hd
    refine ⟨⟨l1.streak, 0⟩,
      { l1 with streak := l1.streak, last_login := some n2 }, ?_, rfl⟩
    simp only [update_login_streak, hrc, hll]
    rw [if_neg (show ¬ n1.day < n2.day by omega)]
  · intro hd
    have hns : nextStreak l1 n1 n2 = r1.streak + 1 := by
      unfold nextStreak
      rw [if_pos (show n2.day = n1.day + 1 by omega), hst]
    refine ⟨{ l1 with streak := r1.streak + 1, last_login := some n2, streak_reward_claimed := some n2, buying_power := l1.buying_power + 100 }, ?_⟩
    simp only [update_login_streak, hrc, hll]
    rw [if_pos (show n1.day < n2.day by omega),
      if_pos (show t'.day < n2.day by omega), hns]
  · intro hd
    have hns : nextStreak l1 n1 n2 = 1 := by
      unfold nextStreak
      rw [if_neg (show ¬ n2.day = n1.day + 1 by omega)]
    refine ⟨{ l1 with streak := 1, last_login := some n2, streak_reward_claimed := some n2, buying_power := l1.buying_power + 100 }, ?_⟩
    simp only [update_login_streak, hrc, hll]
    rw [if_pos (show n1.day < n2.day by omega),
      if_pos (show t'.day < n2.day by omega), hns]

/-- Witness for C4 at a fresh ledger: first login on day 0, second call on
day 1 increments the streak from 1 to 2 with reward 100. -/
theorem update_login_streak_calendar_witness :
    ∃ l2, update_login_streak
        ⟨1, [], 10000 + 100, 1, some ⟨0, 0⟩, some ⟨0, 0⟩⟩ ⟨1, 0⟩
      = some (⟨1 + 1, 100⟩, l2) :=
  (update_login_streak_calendar ⟨1, [], 10000, 0, none, none⟩ ⟨0, 0⟩ ⟨1, 0⟩
      ⟨1, 100⟩ ⟨1, [], 10000 + 100, 1, some ⟨0, 0⟩, some ⟨0, 0⟩⟩ rfl
      (fun _ h => Option.noConfusion h)).2.1 rfl

/-- Upserting a price leaves exactly `max 1 k` entries for the symbol, where
`k` is the number of entries it had before (first match overwritten, or a
new entry appended). -/
theorem upsertPrice_filter_length (db : List CacheEntry) (s : String)
    (p : ℚ) (t : ℤ) :
    ((upsertPrice db s p t).filter (fun e => e.symbol = s)).length
      = max 1 ((db.filter (fun e => e.symbol = s)).length) := by
  induction db with
  | nil => simp [upsertPrice]
  | cons e rest ih =>
    by_cases h : e.symbol = s
    · simp [upsertPrice, h]
    · simp [upsertPrice, h, ih]

/-- Upserting a price for one symbol leaves every other symbol's entries
untouched. -/
theorem upsertPrice_filter_ne (db : List CacheEntry) (s : String)
    (p : ℚ) (t : ℤ) :
    (upsertPrice db s p t).filter (fun e => ¬ e.symbol = s)
      = db.filter (fun e => ¬ e.symbol = s) := by
  induction db with
  | nil => simp [upsertPrice]
  | cons e rest ih =>
    by_cases h : e.symbol = s
    · simp [upsertPrice, h]
    · simp only [decide_not] at ih
      simp [upsertPrice, h, ih]

/-- C3: `get_stock_price` returns the cached price — untouched cache, feed
behaviour irrelevant — exactly when an entry exists with
`now - fetched_at < max_age_seconds`; otherwise it consults the feed and on
success upserts the price with the current timestamp (leaving exactly one
entry for the symbol and every other symbol's entries unchanged) and
returns it; and when the feed has no data or raises it fails with a message
naming the symbol and the underlying cause. -/
theorem get_stock_price_cache (db : List CacheEntry) (s : String)
    (now maxAge : ℤ) :
    (∀ e, db.find? (fun e => e.symbol = s) = some e →
      now - e.timestamp < maxAge →
      ∀ feed, get_stock_price db s now maxAge feed = .ok (e.price, db)) ∧
    ((∀ e, db.find? (fun e => e.symbol = s) = some e →
        maxAge ≤ now - e.timestamp) →
      (∀ p, get_stock_price db s now maxAge (.ok p)
          = .ok (p, upsertPrice db s p now) ∧
        ((db.filter (fun e => e.symbol = s)).length ≤ 1 →
          ((upsertPrice db s p now).filter (fun e => e.symbol = s)).length
            = 1) ∧
        (upsertPrice db s p now).filter (fun e => ¬ e.symbol = s)
          = db.filter (fun e => ¬ e.symbol = s)) ∧
      (get_stock_price db s now maxAge .empty
        = .error ("Error fetching price for " ++ s ++ ": "
            ++ ("No price data available for " ++ s))) ∧
      (∀ m, get_stock_price db s now maxAge (.err m)
        = .error ("Error fetching price for " ++ s ++ ": " ++ m))) := by
  constructor
  · intro e he hage feed
    simp only [get_stock_price, he]
    rw [if_pos hage]
  · intro hmiss
    have hfetch : ∀ feed, get_stock_price db s now maxAge feed
        = get_stock_price.fetchAndCache db s now feed := by
      intro feed
      rcases hf : db.find? (fun e => e.symbol = s) with _ | e
      · simp only [get_stock_price, hf]
      · simp only [get_stock_price, hf]
        rw [if_neg (not_lt.mpr (hmiss e hf))]
    refine ⟨fun p => ⟨?_, ?_, upsertPrice_filter_ne db s p now⟩, ?_, fun m => ?_⟩
    · rw [hfetch]
      rfl
    · intro hle
      rw [upsertPrice_filter_length]
      omega
    · rw [hfetch]
      rfl
    · rw [hfetch]
      rfl

/-- Witness for C3 at a one-entry cache: a fresh entry is served without
touching the feed (here the feed would raise), and on an expired entry a
successful feed call overwrites it. -/
theorem get_stock_price_cache_witness :
    get_stock_price [⟨"A", 7, 0⟩] "A" 10 30 (.err "boom")
        = .ok (7, [⟨"A", 7, 0⟩]) ∧
      get_stock_price [⟨"A", 7, 0⟩] "A" 50 30 (.ok 9)
        = .ok (9, upsertPrice [⟨"A", 7, 0⟩] "A" 9 50) :=
  ⟨(get_stock_price_cache [⟨"A", 7, 0⟩] "A" 10 30).1 ⟨"A", 7, 0⟩ rfl
      (by decide) (.err "boom"),
   ((((get_stock_price_cache [⟨"A", 7, 0⟩] "A" 50 30).2
      (by intro e he; injection he with h1; subst h1; decide)).1 9).1)⟩

/-- `buy_stock` with an available price, written as its case tree. -/
theorem buy_stock_cases (l : Ledger) (s : String) (d p : ℚ) :
    buy_stock l s d (.ok p) =
      if d ≤ 0 then (.err .invalidAmount, l)
      else if round2 (d / p) < 1/100 then (.err .belowMinimum, l)
      else if l.buying_power < round2 (p * round2 (d / p)) then
        (.err .insufficientFunds, l)
      else
        (.ok (round2 (d / p)) (round2 (p * round2 (d / p))) (round2 p),
         { l with portfolio := buyUpdate l.portfolio s (round2 (d / p)) p,
                  buying_power :=
                    round2 (l.buying_power - round2 (p * round2 (d / p))) }) :=
  rfl

/-- A rejected buy leaves the user document unchanged. -/
theorem buy_stock_err_frame {l : Ledger} {s : String} {d : ℚ}
    {pr : Except String ℚ} {e : BuyErr} {res : BuyResult} {l' : Ledger}
    (hres : buy_stock l s d pr = (res, l')) (he : res = .err e) : l' = l := by
  subst he
  rcases pr with m | p
  · simp only [buy_stock] at hres
    split at hres <;>
      exact (congrArg Prod.snd hres).symm
  · rw [buy_stock_cases] at hres
    split at hres
    · exact (congrArg Prod.snd hres).symm
    · split at hres
      · exact (congrArg Prod.snd hres).symm
      · split at hres
        · exact (congrArg Prod.snd hres).symm
        · exact absurd (congrArg Prod.fst hres) (by simp)

/-- Inversion of a successful `buy_stock`: the result fields and the
post-state, plus the guards that were passed. -/
theorem buy_stock_ok_inv {l : Ledger} {s : String} {d p q c pp : ℚ}
    {l' : Ledger} (h : buy_stock l s d (.ok p) = (.ok q c pp, l')) :
    q = round2 (d / p) ∧ c = round2 (p * round2 (d / p)) ∧ pp = round2 p ∧
      0 < d ∧ 1/100 ≤ round2 (d / p) ∧
      round2 (p * round2 (d / p)) ≤ l.buying_power ∧
      l' = { l with
              portfolio := buyUpdate l.portfolio s (round2 (d / p)) p,
              buying_power :=
                round2 (l.buying_power - round2 (p * round2 (d / p))) } := by
  rw [buy_stock_cases] at h
  split at h
  · exact absurd (congrArg Prod.fst h) (by simp)
  · split at h
    · exact absurd (congrArg Prod.fst h) (by simp)
    · split at h
      · exact absurd (congrArg Prod.fst h) (by simp)
      · rename_i hd hq hf
        simp only [Prod.mk.injEq, BuyResult.ok.injEq] at h
        obtain ⟨⟨hq', hc', hpp'⟩, hl'⟩ := h
        exact ⟨hq'.symm, hc'.symm, hpp'.symm, not_le.mp hd, not_lt.mp hq,
          not_lt.mp hf, hl'.symm⟩

/-- C5: with an available price, `buy_stock` rejects with `InvalidAmount`
exactly when the dollar amount is ≤ 0; after that gate, with
`BelowMinimum` exactly when `round(dollar_amount/price, 2) < 0.01`; after
that gate, with `InsufficientFunds` exactly when
`round(price*quantity, 2) > cash_balance`; and every rejection (for any
price outcome) leaves the ledger unchanged. -/
theorem buy_stock_rejections (l : Ledger) (s : String) (d p : ℚ) :
    ((buy_stock l s d (.ok p)).1 = .err .invalidAmount ↔ d ≤ 0) ∧
    (0 < d →
      ((buy_stock l s d (.ok p)).1 = .err .belowMinimum ↔
        round2 (d / p) < 1/100)) ∧
    (0 < d → 1/100 ≤ round2 (d / p) →
      ((buy_stock l s d (.ok p)).1 = .err .insufficientFunds ↔
        round2 (p * round2 (d / p)) > l.buying_power)) ∧
    (∀ pr : Except String ℚ, ∀ e, (buy_stock l s d pr).1 = .err e →
      (buy_stock l s d pr).2 = l) := by
  refine ⟨?_, ?_, ?_, ?_⟩
  · rw [buy_stock_cases]
    by_cases hd : d ≤ 0
    · rw [if_pos hd]
      simp [hd]
    · rw [if_neg hd]
      by_cases hq : round2 (d / p) < 1/100
      · rw [if_pos hq]
        simp [hd]
      · rw [if_neg hq]
        by_cases hf : l.buying_power < round2 (p * round2 (d / p))
        · rw [if_pos hf]
          simp [hd]
        · rw [if_neg hf]
          simp [hd]
  · intro hd
    rw [buy_stock_cases, if_neg (not_le.mpr hd)]
    by_cases hq : round2 (d / p) < 1/100
    · rw [if_pos hq]
      exact iff_of_true rfl hq
    · rw [if_neg hq]
      by_cases hf : l.buying_power < round2 (p * round2 (d / p))
      · rw [if_pos hf]
        exact iff_of_false (by simp) hq
      · rw [if_neg hf]
        exact iff_of_false (by simp) hq
  · intro hd hq
    rw [buy_stock_cases, if_neg (not_le.mpr hd), if_neg (not_lt.mpr hq)]
    by_cases hf : l.buying_power < round2 (p * round2 (d / p))
    · rw [if_pos hf]
      exact iff_of_true rfl hf
    · rw [if_neg hf]
      exact iff_of_false (by simp) hf
  · intro pr e h
    rcases hres : buy_stock l s d pr with ⟨res, l2⟩
    rw [hres] at h
    simp only [hres]
    exact buy_stock_err_frame hres h

/-- Witness for C5: $15000 of a $250 stock against $10000 cash is rejected
as insufficient funds with the ledger untouched. -/
theorem buy_stock_rejections_witness :
    (0:ℚ) < 15000 ∧ (1:ℚ)/100 ≤ round2 (15000 / 250) ∧
      ((buy_stock ⟨1, [], 10000, 0, none, none⟩ "A" 15000 (.ok 250)).1
          = .err .insufficientFunds ↔
        round2 (250 * round2 (15000 / 250)) > (10000:ℚ)) :=
  ⟨by norm_num, by norm_num [round2, roundHalfEven],
   (buy_stock_rejections ⟨1, [], 10000, 0, none, none⟩ "A" 15000 250).2.2.1
     (by norm_num) (by norm_num [round2, roundHalfEven])⟩

/-- The buy loop appends a new position when no position has the symbol. -/
theorem buyUpdate_notFound {pl : List Position} {s : String} (q p : ℚ)
    (h : ∀ x ∈ pl, x.symbol ≠ s) :
    buyUpdate pl s q p = pl ++ [⟨s, q, round2 p⟩] := by
  induction pl with
  | nil => rfl
  | cons x rest ih =>
    have hx : x.symbol ≠ s := h x (by simp)
    simp only [buyUpdate, if_neg hx]
    rw [ih (fun y hy => h y (by simp [hy]))]
    rfl

/-- The buy loop averages into the first position carrying the symbol and
leaves everything else in place. -/
theorem buyUpdate_found {pre post : List Position} {ps : Position}
    {s : String} (q p : ℚ) (hpre : ∀ x ∈ pre, x.symbol ≠ s)
    (hps : ps.symbol = s) :
    buyUpdate (pre ++ ps :: post) s q p
      = pre ++ ⟨ps.symbol, round2 (ps.quantity + q),
          round2 ((ps.quantity * ps.average_price + q * p)
            / round2 (ps.quantity + q))⟩ :: post := by
  induction pre with
  | nil =>
    simp only [List.nil_append, buyUpdate, if_pos hps]
  | cons x rest ih =>
    have hx : x.symbol ≠ s := hpre x (by simp)
    simp only [List.cons_append, buyUpdate, if_neg hx, List.append_eq]
    rw [ih (fun y hy => hpre y (by simp [hy]))]

/-- C1: a successful buy purchases `round(dollar_amount/price, 2)` shares;
when a position with the symbol is already held its new quantity is
`round(old_quantity + purchased, 2)` and its new average price is
`round((old_qty*old_avg + purchased*price) / new_quantity, 2)`; a first buy
of the symbol appends a position with `average_price = round(price, 2)`. -/
theorem buy_stock_position_average (l : Ledger) (s : String)
    (d p q c pp : ℚ) (l' : Ledger)
    (h : buy_stock l s d (.ok p) = (.ok q c pp, l')) :
    q = round2 (d / p) ∧
    (∀ pre ps post, l.portfolio = pre ++ ps :: post → ps.symbol = s →
      (∀ x ∈ pre, x.symbol ≠ s) →
      l'.portfolio = pre ++ ⟨s, round2 (ps.quantity + q),
        round2 ((ps.quantity * ps.average_price + q * p)
          / round2 (ps.quantity + q))⟩ :: post) ∧
    ((∀ x ∈ l.portfolio, x.symbol ≠ s) →
      l'.portfolio = l.portfolio ++ [⟨s, q, round2 p⟩]) := by
  obtain ⟨hq, hc, hpp, hd, hmin, hfund, hl'⟩ := buy_stock_ok_inv h
  subst hq
  subst hl'
  refine ⟨rfl, ?_, ?_⟩
  · intro pre ps post hp hps hpre
    simp only [hp]
    rw [buyUpdate_found _ p hpre hps, hps]
  · intro hnone
    simp only []
    rw [buyUpdate_notFound _ p hnone]

/-- Witness for C1: a first buy of $1000 at $250 appends the position
`(A, 4.0, 250.00)`. -/
theorem buy_stock_position_average_witness :
    ([⟨"A", 4, 250⟩] : List Position) = [] ++ [⟨"A", round2 (1000 / 250), round2 250⟩] :=
  (buy_stock_position_average ⟨1, [], 10000, 0, none, none⟩ "A" 1000 250
      (round2 (1000 / 250)) (round2 (250 * round2 (1000 / 250))) (round2 250)
      ⟨1, [⟨"A", 4, 250⟩], 9000, 0, none, none⟩
      (by norm_num [buy_stock_cases, buyUpdate, round2, roundHalfEven])).2.2
    (fun x hx => absurd hx (List.not_mem_nil x))

/-- `sell_stock` with an available price, written as its case tree. -/
theorem sell_stock_cases (l : Ledger) (s : String) (qty p : ℚ) :
    sell_stock l s qty (.ok p) =
      if qty ≤ 0 then (.err .invalidQuantity, l)
      else
        match sellUpdate l.portfolio s (round2 qty) with
        | .notFound => (.err .stockNotFound, l)
        | .insufficient h => (.err (.insufficientShares h), l)
        | .ok p' =>
            (.ok (round2 (p * round2 qty)) p,
             { l with portfolio := p',
                      buying_power :=
                        round2 (l.buying_power + round2 (p * round2 qty)) }) :=
  rfl

/-- The sell loop, related to the first position found for the symbol: it
reports insufficient shares with that position's held quantity exactly when
the held quantity is below the (rounded) request, and succeeds otherwise. -/
theorem sellUpdate_insufficient {pl : List Position} {s : String}
    {ps : Position} (q : ℚ)
    (hfind : pl.find? (fun x => x.symbol = s) = some ps) :
    (ps.quantity < q → sellUpdate pl s q = .insufficient ps.quantity) ∧
    (¬ ps.quantity < q → ∃ pl', sellUpdate pl s q = .ok pl') := by
  induction pl with
  | nil => exact absurd hfind (by simp)
  | cons x rest ih =>
    by_cases hx : x.symbol = s
    · rw [List.find?_cons_of_pos _ (by simp [hx])] at hfind
      cases Option.some.inj hfind
      constructor
      · intro hlt
        simp only [sellUpdate, if_pos hx, if_pos hlt]
      · intro hge
        by_cases hrem : round2 (ps.quantity - q) < 1/100
        · exact ⟨rest,
            by simp only [sellUpdate, if_pos hx, if_neg hge, if_pos hrem]⟩
        · exact ⟨⟨ps.symbol, round2 (ps.quantity - q), ps.average_price⟩ :: rest,
            by simp only [sellUpdate, if_pos hx, if_neg hge, if_neg hrem]⟩
    · rw [List.find?_cons_of_neg _ (by simp [hx])] at hfind
      obtain ⟨h1, h2⟩ := ih hfind
      constructor
      · intro hlt
        simp only [sellUpdate, if_neg hx, h1 hlt]
      · intro hge
        obtain ⟨pl', hpl'⟩ := h2 hge
        exact ⟨x :: pl', by simp only [sellUpdate, if_neg hx, hpl']⟩

/-- C2: for a positive sell request on a held symbol, the sale is rejected
with the insufficient-shares error exactly when the rounded requested
quantity exceeds the unrounded stored held quantity, and on that rejection
the ledger (cash balance and positions) is completely unchanged. -/
theorem sell_stock_insufficient (l : Ledger) (s : String) (qty p : ℚ)
    (hq : 0 < qty) (ps : Position)
    (hfind : l.portfolio.find? (fun x => x.symbol = s) = some ps) :
    ((sell_stock l s qty (.ok p)).1
        = .err (.insufficientShares ps.quantity) ↔
      ps.quantity < round2 qty) ∧
    (ps.quantity < round2 qty →
      sell_stock l s qty (.ok p) = (.err (.insufficientShares ps.quantity), l)) := by
  obtain ⟨hins, hok⟩ := sellUpdate_insufficient (round2 qty) hfind
  rw [sell_stock_cases, if_neg (not_le.mpr hq)]
  by_cases hlt : ps.quantity < round2 qty
  · simp only [hins hlt]
    simp [hlt]
  · obtain ⟨pl', hpl'⟩ := hok hlt
    simp only [hpl']
    simp [hlt]

/-- Witness for C2: selling 2 shares when 1.0 is held is rejected with the
insufficient-shares error and the ledger is untouched. -/
theorem sell_stock_insufficient_witness :
    (0:ℚ) < 2 ∧ (1:ℚ) < round2 2 ∧
      sell_stock ⟨1, [⟨"A", 1, 10⟩], 500, 0, none, none⟩ "A" 2 (.ok 5)
        = (.err (.insufficientShares 1),
           ⟨1, [⟨"A", 1, 10⟩], 500, 0, none, none⟩) :=
  ⟨by norm_num, by norm_num [round2, roundHalfEven],
   (sell_stock_insufficient ⟨1, [⟨"A", 1, 10⟩], 500, 0, none, none⟩ "A" 2 5
      (by norm_num) ⟨"A", 1, 10⟩ rfl).2
     (by norm_num [round2, roundHalfEven])⟩

/-- The ledger invariant on a portfolio: at most one position per symbol,
and every retained position holds at least 0.01 shares. -/
def PortfolioInv (pl : List Position) : Prop :=
  pl.Pairwise (fun a b => a.symbol ≠ b.symbol) ∧
    ∀ ps ∈ pl, 1/100 ≤ ps.quantity

/-- Every symbol in the buy loop's output is the bought symbol or was
already present. -/
theorem mem_buyUpdate_symbol {pl : List Position} {s : String} {q p : ℚ} :
    ∀ x ∈ buyUpdate pl s q p,
      x.symbol = s ∨ x.symbol ∈ pl.map Position.symbol := by
  induction pl with
  | nil =>
    intro x hx
    simp only [buyUpdate, List.mem_singleton] at hx
    subst hx
    exact Or.inl rfl
  | cons y rest ih =>
    intro x hx
    by_cases hy : y.symbol = s
    · simp only [buyUpdate, if_pos hy, List.mem_cons] at hx
      rcases hx with rfl | hx
      · exact Or.inl hy
      · exact Or.inr (by simp [List.mem_map]; exact Or.inr ⟨x, hx, rfl⟩)
    · simp only [buyUpdate, if_neg hy, List.mem_cons] at hx
      rcases hx with rfl | hx
      · exact Or.inr (by simp)
      · rcases ih x hx with h | h
        · exact Or.inl h
        · exact Or.inr (by simp [h])

/-- The buy loop preserves symbol-uniqueness of the portfolio. -/
theorem buyUpdate_pairwise {pl : List Position} {s : String} {q p : ℚ}
    (h : pl.Pairwise (fun a b => a.symbol ≠ b.symbol)) :
    (buyUpdate pl s q p).Pairwise (fun a b => a.symbol ≠ b.symbol) := by
  induction pl with
  | nil => simp [buyUpdate]
  | cons y rest ih =>
    rw [List.pairwise_cons] at h
    obtain ⟨hy, hrest⟩ := h
    by_cases hys : y.symbol = s
    · simp only [buyUpdate, if_pos hys]
      rw [List.pairwise_cons]
      exact ⟨hy, hrest⟩
    · simp only [buyUpdate, if_neg hys]
      rw [List.pairwise_cons]
      refine ⟨?_, ih hrest⟩
      intro z hz
      rcases mem_buyUpdate_symbol z hz with h | h
      · rw [h]
        exact hys
      · obtain ⟨w, hw, hws⟩ := List.mem_map.mp h
        rw [← hws]
        exact hy w hw

/-- Rounding keeps a value within half a cent. -/
theorem round2_ge (z : ℚ) : z - 1/200 ≤ round2 z := by
  have h := round2_sub_le z
  rw [abs_le] at h
  linarith [h.1]

/-- The buy loop keeps every quantity at or above the 0.01 minimum when at
least 0.01 shares are bought. -/
theorem buyUpdate_min_quantity {pl : List Position} {s : String} {q p : ℚ}
    (hq : 1/100 ≤ q) (h : ∀ x ∈ pl, 1/100 ≤ x.quantity) :
    ∀ x ∈ buyUpdate pl s q p, 1/100 ≤ x.quantity := by
  induction pl with
  | nil =>
    intro x hx
    simp only [buyUpdate, List.mem_singleton] at hx
    subst hx
    exact hq
  | cons y rest ih =>
    intro x hx
    by_cases hy : y.symbol = s
    · simp only [buyUpdate, if_pos hy, List.mem_cons] at hx
      rcases hx with rfl | hx
      · have hy1 : 1/100 ≤ y.quantity := h y (by simp)
        have := round2_ge (y.quantity + q)
        simp only []
        linarith
      · exact h x (by simp [hx])
    · simp only [buyUpdate, if_neg hy, List.mem_cons] at hx
      rcases hx with rfl | hx
      · exact h x (by simp)
      · exact ih (fun z hz => h z (by simp [hz])) x hx

/-- Every symbol in the sell loop's output was already present. -/
theorem mem_sellUpdate_symbol {pl : List Position} {s : String} {q : ℚ}
    {pl' : List Position} (h : sellUpdate pl s q = .ok pl') :
    ∀ x ∈ pl', x.symbol ∈ pl.map Position.symbol := by
  induction pl generalizing pl' with
  | nil => exact absurd h (by simp [sellUpdate])
  | cons y rest ih =>
    by_cases hy : y.symbol = s
    · simp only [sellUpdate, if_pos hy] at h
      split at h
      · exact absurd h (by simp)
      · split at h
        · cases SellUpd.ok.inj h
          intro x hx
          simp [List.mem_map]
          exact Or.inr ⟨x, hx, rfl⟩
        · cases SellUpd.ok.inj h
          intro x hx
          rcases List.mem_cons.mp hx with rfl | hx
          · simp
          · simp [List.mem_map]
            exact Or.inr ⟨x, hx, rfl⟩
    · simp only [sellUpdate, if_neg hy] at h
      split at h
      · exact SellUpd.noConfusion h
      · exact SellUpd.noConfusion h
      rename_i pl'' hpl''
      cases SellUpd.ok.inj h
      intro x hx
      rcases List.mem_cons.mp hx with rfl | hx
      · simp
      · rcases List.mem_map.mp (ih hpl'' x hx) with ⟨w, hw, hws⟩
        simp [List.mem_map]
        exact Or.inr ⟨w, hw, hws⟩

/-- The sell loop preserves symbol-uniqueness of the portfolio. -/
theorem sellUpdate_pairwise {pl : List Position} {s : String} {q : ℚ}
    {pl' : List Position} (h : sellUpdate pl s q = .ok pl')
    (hp : pl.Pairwise (fun a b => a.symbol ≠ b.symbol)) :
    pl'.Pairwise (fun a b => a.symbol ≠ b.symbol) := by
  induction pl generalizing pl' with
  | nil => exact absurd h (by simp [sellUpdate])
  | cons y rest ih =>
    rw [List.pairwise_cons] at hp
    obtain ⟨hy1, hrest⟩ := hp
    by_cases hy : y.symbol = s
    · simp only [sellUpdate, if_pos hy] at h
      split at h
      · exact absurd h (by simp)
      · split at h
        · cases SellUpd.ok.inj h
          exact hrest
        · cases SellUpd.ok.inj h
          rw [List.pairwise_cons]
          exact ⟨hy1, hrest⟩
    · simp only [sellUpdate, if_neg hy] at h
      split at h
      · exact SellUpd.noConfusion h
      · exact SellUpd.noConfusion h
      rename_i pl'' hpl''
      cases SellUpd.ok.inj h
      rw [List.pairwise_cons]
      refine ⟨?_, ih hpl'' hrest⟩
      intro z hz
      rcases List.mem_map.mp (mem_sellUpdate_symbol hpl'' z hz) with ⟨w, hw, hws⟩
      rw [← hws]
      exact hy1 w hw

/-- The sell loop keeps every retained quantity at or above 0.01. -/
theorem sellUpdate_min_quantity {pl : List Position} {s : String} {q : ℚ}
    {pl' : List Position} (h : sellUpdate pl s q = .ok pl')
    (hmin : ∀ x ∈ pl, 1/100 ≤ x.quantity) :
    ∀ x ∈ pl', 1/100 ≤ x.quantity := by
  induction pl generalizing pl' with
  | nil => exact absurd h (by simp [sellUpdate])
  | cons y rest ih =>
    by_cases hy : y.symbol = s
    · simp only [sellUpdate, if_pos hy] at h
      split at h
      · exact absurd h (by simp)
      · split at h
        · cases SellUpd.ok.inj h
          exact fun x hx => hmin x (by simp [hx])
        · rename_i hrem
          cases SellUpd.ok.inj h
          intro x hx
          rcases List.mem_cons.mp hx with rfl | hx
          · simpa using not_lt.mp hrem
          · exact hmin x (by simp [hx])
    · simp only [sellUpdate, if_neg hy] at h
      split at h
      · exact SellUpd.noConfusion h
      · exact SellUpd.noConfusion h
      rename_i pl'' hpl''
      cases SellUpd.ok.inj h
      intro x hx
      rcases List.mem_cons.mp hx with rfl | hx
      · exact hmin x (by simp)
      · exact ih hpl'' (fun z hz => hmin z (by simp [hz])) x hx

/-- When the sale empties the first (and, by uniqueness, only) position of
the symbol below 0.01, the sell loop removes it: no output position carries
the symbol. -/
theorem sellUpdate_removes {pl : List Position} {s : String} {q : ℚ}
    {pl' : List Position} {ps : Position} (h : sellUpdate pl s q = .ok pl')
    (hp : pl.Pairwise (fun a b => a.symbol ≠ b.symbol))
    (hfind : pl.find? (fun x => x.symbol = s) = some ps)
    (hrem : round2 (ps.quantity - q) < 1/100) :
    ∀ x ∈ pl', x.symbol ≠ s := by
  induction pl generalizing pl' with
  | nil => exact absurd h (by simp [sellUpdate])
  | cons y rest ih =>
    rw [List.pairwise_cons] at hp
    obtain ⟨hy1, hrest⟩ := hp
    by_cases hy : y.symbol = s
    · rw [List.find?_cons_of_pos _ (by simp [hy])] at hfind
      cases Option.some.inj hfind
      simp only [sellUpdate, if_pos hy] at h
      by_cases hlt : ps.quantity < q
      · rw [if_pos hlt] at h
        exact SellUpd.noConfusion h
      · rw [if_neg hlt, if_pos hrem] at h
        cases SellUpd.ok.inj h
        intro x hx hxs
        exact hy1 x hx (by rw [hxs, hy])
    · rw [List.find?_cons_of_neg _ (by simp [hy])] at hfind
      simp only [sellUpdate, if_neg hy] at h
      split at h
      · exact SellUpd.noConfusion h
      · exact SellUpd.noConfusion h
      rename_i pl'' hpl''
      cases SellUpd.ok.inj h
      intro x hx
      rcases List.mem_cons.mp hx with rfl | hx
      · exact hy
      · exact ih hpl'' hrest hfind x hx

/-- A rejected sell leaves the user document unchanged. -/
theorem sell_stock_err_frame {l : Ledger} {s : String} {qty : ℚ}
    {pr : Except String ℚ} {e : SellErr} {res : SellResult} {l' : Ledger}
    (h : sell_stock l s qty pr = (res, l')) (he : res = .err e) : l' = l := by
  subst he
  rcases pr with m | p
  · simp only [sell_stock] at h
    split at h <;> exact (congrArg Prod.snd h).symm
  · rw [sell_stock_cases] at h
    split at h
    · exact (congrArg Prod.snd h).symm
    · split at h
      · exact (congrArg Prod.snd h).symm
      · exact (congrArg Prod.snd h).symm
      · exact absurd (congrArg Prod.fst h) (by simp)

/-- Inversion of a successful `sell_stock`: the result fields and the
post-state. -/
theorem sell_stock_ok_inv {l : Ledger} {s : String} {qty p v pps : ℚ}
    {l' : Ledger} (h : sell_stock l s qty (.ok p) = (.ok v pps, l')) :
    v = round2 (p * round2 qty) ∧ pps = p ∧ 0 < qty ∧
      ∃ pl', sellUpdate l.portfolio s (round2 qty) = .ok pl' ∧
        l' = { l with portfolio := pl', buying_power := round2 (l.buying_power + round2 (p * round2 qty)) } := by
  rw [sell_stock_cases] at h
  split at h
  · exact absurd (congrArg Prod.fst h) (by simp)
  · rename_i hq0
    split at h
    · exact absurd (congrArg Prod.fst h) (by simp)
    · exact absurd (congrArg Prod.fst h) (by simp)
    · rename_i pl'' hpl''
      simp only [Prod.mk.injEq, SellResult.ok.injEq] at h
      obtain ⟨⟨hv, hpps⟩, hl'⟩ := h
      exact ⟨hv.symm, hpps.symm, not_le.mp hq0, pl'', hpl'', hl'.symm⟩

/-- C6: every buy and every sell preserves the portfolio invariant (at most
one position per symbol, every retained quantity at least 0.01), and a sell
that rounds the held quantity below 0.01 removes the position entirely. -/
theorem trade_preserves_portfolio_invariant (l : Ledger) (s : String) :
    (∀ (d : ℚ) (pr : Except String ℚ) (res : BuyResult) (l' : Ledger),
      PortfolioInv l.portfolio → buy_stock l s d pr = (res, l') →
      PortfolioInv l'.portfolio) ∧
    (∀ (qty : ℚ) (pr : Except String ℚ) (res : SellResult) (l' : Ledger),
      PortfolioInv l.portfolio → sell_stock l s qty pr = (res, l') →
      PortfolioInv l'.portfolio) ∧
    (∀ (qty p v pps : ℚ) (l' : Ledger) (ps : Position),
      PortfolioInv l.portfolio →
      l.portfolio.find? (fun x => x.symbol = s) = some ps →
      round2 (ps.quantity - round2 qty) < 1/100 →
      sell_stock l s qty (.ok p) = (.ok v pps, l') →
      ∀ x ∈ l'.portfolio, x.symbol ≠ s) := by
  refine ⟨?_, ?_, ?_⟩
  · intro d pr res l' hinv hb
    rcases pr with m | p
    · have hfr : l' = l := by
        simp only [buy_stock] at hb
        split at hb <;> exact (congrArg Prod.snd hb).symm
      rw [hfr]
      exact hinv
    · rcases res with e | ⟨q, c, pp⟩
      · rw [buy_stock_err_frame hb rfl]
        exact hinv
      · obtain ⟨hq, hc, hpp, hd, hmin, hfund, hl'⟩ := buy_stock_ok_inv hb
        subst hl'
        exact ⟨buyUpdate_pairwise hinv.1, buyUpdate_min_quantity hmin hinv.2⟩
  · intro qty pr res l' hinv hs
    rcases pr with m | p
    · have hfr : l' = l := by
        simp only [sell_stock] at hs
        split at hs <;> exact (congrArg Prod.snd hs).symm
      rw [hfr]
      exact hinv
    · rcases res with e | ⟨v, pps⟩
      · rw [sell_stock_err_frame hs rfl]
        exact hinv
      · obtain ⟨hv, hpps, hq0, pl', hpl', hl'⟩ := sell_stock_ok_inv hs
        subst hl'
        exact ⟨sellUpdate_pairwise hpl' hinv.1,
          sellUpdate_min_quantity hpl' hinv.2⟩
  · intro qty p v pps l' ps hinv hfind hrem hs
    obtain ⟨hv, hpps, hq0, pl', hpl', hl'⟩ := sell_stock_ok_inv hs
    subst hl'
    exact sellUpdate_removes hpl' hinv.1 hfind hrem

/-- Witness for C6: selling the full 1.0 shares held removes the position:
the resulting portfolio holds nothing under the symbol. -/
theorem trade_preserves_portfolio_invariant_witness :
    ∀ x ∈ (⟨1, [], 505, 0, none, none⟩ : Ledger).portfolio, x.symbol ≠ "A" :=
  (trade_preserves_portfolio_invariant
      ⟨1, [⟨"A", 1, 10⟩], 500, 0, none, none⟩ "A").2.2 1 5 5 5
    ⟨1, [], 505, 0, none, none⟩ ⟨"A", 1, 10⟩
    ⟨by simp, by intro x hx; rw [List.mem_singleton] at hx; subst hx; norm_num⟩
    rfl
    (by norm_num [round2, roundHalfEven])
    (by norm_num [sell_stock_cases, sellUpdate, round2, roundHalfEven])

/-- C9: a successful buy followed by a successful sell of the purchased
quantity at the same price returns the cash balance to within one cent
(2-decimal rounding) of its pre-trade value. -/
theorem buy_sell_round_trip (l : Ledger) (s : String)
    (d p q c pp v pps : ℚ) (l1 l2 : Ledger)
    (hb : buy_stock l s d (.ok p) = (.ok q c pp, l1))
    (hs : sell_stock l1 s q (.ok p) = (.ok v pps, l2)) :
    |l2.buying_power - l.buying_power| ≤ 1/100 := by
  obtain ⟨hq, hc, hpp, hd, hmin, hfund, hl1⟩ := buy_stock_ok_inv hb
  obtain ⟨hv, hpps, hq0, pl', hpl', hl2⟩ := sell_stock_ok_inv hs
  have hqr : round2 q = q := by
    rw [hq]
    exact round2_of_isCents (round2_isCents _)
  have hvc : round2 (p * round2 q) = c := by
    rw [hqr, hq, hc]
  have hbp2 : l2.buying_power = round2 (l1.buying_power + c) := by
    simp only [hl2, hvc]
  have hbp1 : l1.buying_power = round2 (l.buying_power - c) := by
    simp only [hl1, ← hc]
  have h1 := round2_sub_le (l.buying_power - c)
  have h2 := round2_sub_le (round2 (l.buying_power - c) + c)
  rw [hbp2, hbp1]
  rw [abs_le] at h1 h2 ⊢
  constructor <;> linarith [h1.1, h1.2, h2.1, h2.2]

/-- Witness for C9: buying $1000 at $250 and selling the 4.0 shares back at
$250 restores the $10000 balance exactly. -/
theorem buy_sell_round_trip_witness :
    |(10000:ℚ) - 10000| ≤ 1/100 :=
  buy_sell_round_trip ⟨1, [], 10000, 0, none, none⟩ "A" 1000 250 4 1000 250
    1000 250 ⟨1, [⟨"A", 4, 250⟩], 9000, 0, none, none⟩
    ⟨1, [], 10000, 0, none, none⟩
    (by norm_num [buy_stock_cases, buyUpdate, round2, roundHalfEven])
    (by norm_num [sell_stock_cases, sellUpdate, round2, roundHalfEven])

/-- A position whose history has fewer than two closes contributes nothing
to the daily-return accumulator — not even an entry in the results. -/
theorem dailyStep_short {hist : String → HistResult} {acc : DailyAcc}
    {ps : Position} {cs : List ℚ} (hh : hist ps.symbol = .ok cs)
    (hlen : cs.length < 2) : dailyStep hist acc ps = acc := by
  simp only [dailyStep, hh]
  rw [if_neg (by omega)]

/-- The daily-return loop only ever appends to the per-stock results. -/
theorem mem_rets_dailyStep {hist : String → HistResult} {acc : DailyAcc}
    {ps : Position} {x : StockReturn} (hx : x ∈ acc.rets) :
    x ∈ (dailyStep hist acc ps).rets := by
  unfold dailyStep
  split
  · exact List.mem_append_left _ hx
  · dsimp only
    split
    · split
      · exact List.mem_append_left _ hx
      · exact List.mem_append_left _ hx
    · exact hx

/-- Results accumulated before the loop survive the rest of the loop. -/
theorem mem_rets_foldl {hist : String → HistResult} {acc : DailyAcc}
    {x : StockReturn} (pl : List Position) (hx : x ∈ acc.rets) :
    x ∈ (pl.foldl (dailyStep hist) acc).rets := by
  induction pl generalizing acc with
  | nil => exact hx
  | cons y rest ih => exact ih (mem_rets_dailyStep hx)

/-- C8 counterexample: with one held position whose history has a single
data point (no exception raised), `calculate_daily_return` reports NO
per-stock entry at all — the claimed error marker is absent. -/
theorem calculate_daily_return_missing_marker :
    (calculate_daily_return ⟨1, [⟨"A", 1, 10⟩], 0, 0, none, none⟩
        (fun _ => .ok [5])).stock_returns = [] ∧
      (⟨1, [⟨"A", 1, 10⟩], 0, 0, none, none⟩ : Ledger).portfolio ≠ [] :=
  ⟨rfl, by simp⟩

/-- C8 (amended): a held position whose history has fewer than two closes
is excluded from the aggregate totals and omitted from the per-stock
results entirely; an error marker is reported (only) when the history
lookup for the position raises. -/
theorem calculate_daily_return_short_history (l : Ledger)
    (hist : String → HistResult) (pre post : List Position) (ps : Position)
    (hp : l.portfolio = pre ++ ps :: post) :
    (∀ cs, hist ps.symbol = .ok cs → cs.length < 2 →
      calculate_daily_return l hist
        = calculate_daily_return { l with portfolio := pre ++ post } hist) ∧
    (∀ m, hist ps.symbol = .err m →
      .errMark ps.symbol m ∈ (calculate_daily_return l hist).stock_returns) := by
  constructor
  · intro cs hh hlen
    unfold calculate_daily_return
    simp only [hp]
    rw [List.foldl_append, List.foldl_cons, dailyStep_short hh hlen,
      ← List.foldl_append]
  · intro m hh
    unfold calculate_daily_return
    simp only [hp]
    rw [List.foldl_append, List.foldl_cons]
    apply mem_rets_foldl
    have : (dailyStep hist (pre.foldl (dailyStep hist)
          ⟨0, l.buying_power, l.buying_power, []⟩) ps).rets
        = (pre.foldl (dailyStep hist)
            ⟨0, l.buying_power, l.buying_power, []⟩).rets
          ++ [.errMark ps.symbol m] := by
      simp only [dailyStep, hh]
    rw [this]
    exact List.mem_append_right _ (by simp)

/-- Witness for C8's amended theorem: a single position with a one-point
history yields the same result as an empty portfolio. -/
theorem calculate_daily_return_short_history_witness :
    calculate_daily_return ⟨1, [⟨"A", 1, 10⟩], 3, 0, none, none⟩
        (fun _ => .ok [5])
      = calculate_daily_return ⟨1, [], 3, 0, none, none⟩ (fun _ => .ok [5]) :=
  (calculate_daily_return_short_history ⟨1, [⟨"A", 1, 10⟩], 3, 0, none, none⟩
      (fun _ => .ok [5]) [] [] ⟨"A", 1, 10⟩ rfl).1 [5] rfl (by norm_num)

end Geese
